import Mathlib

/-!
# Token registry of `pr2`: embedding of `src/server.go`

The registry operations `CreateToken`, `DropToken`, `WriteToken`, `ReadToken`, the two range
scans `computePartialValue` / `computeFinalValue` and `Hash` are written as Lean functions.

* The Go map `map[string]*token.Token` is a `Finmap` from keys to token records: a map has no
  iteration order, so `getTokens` yields a multiset.
* `uint64` values are natural numbers. The scans only increment `x` while `x < mid`, so the
  increment never wraps.
* `crypto/sha256` is modelled by `sha256`, written after FIPS 180-4 over lists of bytes.
* Every handler returns the state after the call, the response and the Go `error` value.
-/

namespace Server

/-! ## SHA-256 (model of `crypto/sha256`) -/

/-- Round constants of SHA-256 (FIPS 180-4, section 4.2.2), in decimal: `1116352408` is
`0x428a2f98`. -/
def sha256K : List Nat :=
  [1116352408, 1899447441, 3049323471, 3921009573, 961987163, 1508970993,
   2453635748, 2870763221, 3624381080, 310598401, 607225278, 1426881987,
   1925078388, 2162078206, 2614888103, 3248222580, 3835390401, 4022224774,
   264347078, 604807628, 770255983, 1249150122, 1555081692, 1996064986,
   2554220882, 2821834349, 2952996808, 3210313671, 3336571891, 3584528711,
   113926993, 338241895, 666307205, 773529912, 1294757372, 1396182291,
   1695183700, 1986661051, 2177026350, 2456956037, 2730485921, 2820302411,
   3259730800, 3345764771, 3516065817, 3600352804, 4094571909, 275423344,
   430227734, 506948616, 659060556, 883997877, 958139571, 1322822218,
   1537002063, 1747873779, 1955562222, 2024104815, 2227730452, 2361852424,
   2428436474, 2756734187, 3204031479, 3329325298]

/-- Working variables a..h. -/
structure Sha256State where
  a : Nat
  b : Nat
  c : Nat
  d : Nat
  e : Nat
  f : Nat
  g : Nat
  h : Nat

/-- Initial hash value of SHA-256 (FIPS 180-4, section 5.3.3), in decimal: `1779033703` is
`0x6a09e667`. -/
def sha256Init : Sha256State :=
  ⟨1779033703, 3144134277, 1013904242, 2773480762,
    1359893119, 2600822924, 528734635, 1541459225⟩

/-- Addition of 32-bit words. -/
def add32 (a b : Nat) : Nat := (a + b) % 2 ^ 32

/-- Rotate a 32-bit word right by `n` bits. -/
def rotr32 (x n : Nat) : Nat := (x >>> n) ||| ((x <<< (32 - n)) % 2 ^ 32)

/-- The functions of FIPS 180-4, section 4.1.2, on 32-bit words. -/
def bigSigma0 (x : Nat) : Nat := rotr32 x 2 ^^^ rotr32 x 13 ^^^ rotr32 x 22
def bigSigma1 (x : Nat) : Nat := rotr32 x 6 ^^^ rotr32 x 11 ^^^ rotr32 x 25
def smallSigma0 (x : Nat) : Nat := rotr32 x 7 ^^^ rotr32 x 18 ^^^ (x >>> 3)
def smallSigma1 (x : Nat) : Nat := rotr32 x 17 ^^^ rotr32 x 19 ^^^ (x >>> 10)
def ch (x y z : Nat) : Nat := (x &&& y) ^^^ ((x ^^^ 0xffffffff) &&& z)
def maj (x y z : Nat) : Nat := (x &&& y) ^^^ (x &&& z) ^^^ (y &&& z)

/-- Padding: a 0x80 byte, zero bytes up to 56 mod 64, then the bit length as 8 big-endian bytes. -/
def sha256Pad (msg : List Nat) : List Nat :=
  let len := msg.length
  let zeros := (64 - (len + 9) % 64) % 64
  msg ++ [0x80] ++ List.replicate zeros 0 ++
    (List.range 8).map (fun i => ((len * 8) >>> (8 * (7 - i))) % 256)

/-- Big-endian 32-bit words of a byte list (length a multiple of 4). -/
def toWords : List Nat → List Nat
  | b0 :: b1 :: b2 :: b3 :: rest => (b0 * 2 ^ 24 + b1 * 2 ^ 16 + b2 * 2 ^ 8 + b3) :: toWords rest
  | _ => []

/-- Message schedule: extends the reversed list of words computed so far by `n` more words. -/
def schedule : Nat → List Nat → List Nat
  | 0, rev => rev
  | n + 1, rev =>
    match rev with
    | _ :: w2 :: _ :: _ :: _ :: _ :: w7 :: _ :: _ :: _ :: _ :: _ :: _ :: _ :: w15 :: w16 :: _ =>
      schedule n (add32 (add32 (smallSigma1 w2) w7) (add32 (smallSigma0 w15) w16) :: rev)
    | _ => rev

def sha256Round (s : Sha256State) (kw : Nat × Nat) : Sha256State :=
  let t1 := add32 (add32 (add32 s.h (bigSigma1 s.e)) (add32 (ch s.e s.f s.g) kw.1)) kw.2
  let t2 := add32 (bigSigma0 s.a) (maj s.a s.b s.c)
  ⟨add32 t1 t2, s.a, s.b, s.c, add32 s.d t1, s.e, s.f, s.g⟩

def sha256Block (s : Sha256State) (block : List Nat) : Sha256State :=
  let w := (schedule 48 (toWords block).reverse).reverse
  let r := (sha256K.zip w).foldl sha256Round s
  ⟨add32 s.a r.a, add32 s.b r.b, add32 s.c r.c, add32 s.d r.d,
   add32 s.e r.e, add32 s.f r.f, add32 s.g r.g, add32 s.h r.h⟩

def sha256Blocks : Nat → Sha256State → List Nat → Sha256State
  | 0, s, _ => s
  | n + 1, s, bytes => sha256Blocks n (sha256Block s (bytes.take 64)) (bytes.drop 64)

def wordBytes (w : Nat) : List Nat :=
  [(w >>> 24) % 256, (w >>> 16) % 256, (w >>> 8) % 256, w % 256]

/-- SHA-256 digest (32 bytes) of a byte list. -/
def sha256 (msg : List Nat) : List Nat :=
  let p := sha256Pad msg
  let s := sha256Blocks (p.length / 64) sha256Init p
  wordBytes s.a ++ wordBytes s.b ++ wordBytes s.c ++ wordBytes s.d ++
    wordBytes s.e ++ wordBytes s.f ++ wordBytes s.g ++ wordBytes s.h

/-! ## `Hash` -/

/-- Bytes of a string, as `[]byte(s)` yields them. -/
def utf8 (s : String) : List Nat := s.toUTF8.toList.map UInt8.toNat

/-- The call `binary.BigEndian.Uint64`: the first eight bytes read as a big-endian number. -/
def bigEndianUint64 (b : List Nat) : Nat :=
  (b.take 8).foldl (fun acc x => acc * 256 + x % 256) 0

/-- The preimage `fmt.Sprintf("%s %d", name, nonce)`. -/
def hashInput (name : String) (nonce : Nat) : String :=
  name ++ " " ++ toString nonce

/-- Hash concatenates a message and a nonce and generates a hash value. -/
def Hash (name : String) (nonce : Nat) : Nat :=
  bigEndianUint64 (sha256 (utf8 (hashInput name nonce)))

/-! ## Range scans -/

/-- The largest `uint64`, the initial `minHash` (`^uint64(0)`). -/
def maxUint64 : Nat := 2 ^ 64 - 1

/-- The `for x := low; x < mid; x++` loop of `computePartialValue`. The state is the loop
variable `x`, `minHash`, `partialValue` and a count of the `Hash` calls made so far; `fuel` bounds
the number of iterations. The result is the final `partialValue` and the number of `Hash` calls. -/
def computePartialValueLoop (name : String) (mid : Nat) : Nat → Nat → Nat → Nat → Nat → Nat × Nat
  | 0, _, _, partialValue, calls => (partialValue, calls)
  | fuel + 1, x, minHash, partialValue, calls =>
    if x < mid then
      let hash := Hash name x
      if hash < minHash then
        computePartialValueLoop name mid fuel (x + 1) hash x (calls + 1)
      else
        computePartialValueLoop name mid fuel (x + 1) minHash partialValue (calls + 1)
    else (partialValue, calls)

/-- computePartialValue computes the partial value of a token. The loop runs `mid - low`
times at most (not at all when `mid ≤ low`), which is the fuel given. -/
def computePartialValue (name : String) (low mid : Nat) : Nat :=
  (computePartialValueLoop name mid (mid - low) low maxUint64 0 0).1

/-- Number of `Hash` evaluations made by `computePartialValue`. -/
def computePartialValueHashCalls (name : String) (low mid : Nat) : Nat :=
  (computePartialValueLoop name mid (mid - low) low maxUint64 0 0).2

/-- The `for x := mid; x < high; x++` loop of `computeFinalValue`, with the same state as
`computePartialValueLoop`. -/
def computeFinalValueLoop (name : String) (high : Nat) : Nat → Nat → Nat → Nat → Nat → Nat × Nat
  | 0, _, _, finalValue, calls => (finalValue, calls)
  | fuel + 1, x, minHash, finalValue, calls =>
    if x < high then
      let hash := Hash name x
      if hash < minHash then
        computeFinalValueLoop name high fuel (x + 1) hash x (calls + 1)
      else
        computeFinalValueLoop name high fuel (x + 1) minHash finalValue (calls + 1)
    else (finalValue, calls)

/-- computeFinalValue computes the final value of a token. -/
def computeFinalValue (name : String) (mid high : Nat) : Nat :=
  (computeFinalValueLoop name high (high - mid) mid maxUint64 0 0).1

/-- Number of `Hash` evaluations made by `computeFinalValue`. -/
def computeFinalValueHashCalls (name : String) (mid high : Nat) : Nat :=
  (computeFinalValueLoop name high (high - mid) mid maxUint64 0 0).2

/-- The function min returns the minimum of two uint64 values. -/
def min (a b : Nat) : Nat := if a < b then a else b

/-! ## The registry -/

/-- Modelled from the spec: the message type `token.Token` is generated code that is not among
the sources. Its fields are the ones `server.go` reads and writes: the id, the name, the domain
`(low, mid, high)` and the two derived values, the numbers being unsigned 64-bit. -/
structure Token where
  Id : String
  Name : String
  Low : Nat
  Mid : Nat
  High : Nat
  PartialValue : Nat
  FinalValue : Nat
deriving DecidableEq

/-- Modelled from the spec: the message type `token.TokenResponse` is generated code that is not
among the sources. It carries the message and the list of all tokens; the list is filled by
ranging over a Go map, so its order is not determined and it is a multiset here. -/
structure TokenResponse where
  Message : String
  Tokens : Multiset Token
deriving DecidableEq

/-- TokenServer represents the gRPC server: the map from token id to token. -/
structure TokenServer where
  tokens : Finmap (fun _ : String => Token)
deriving DecidableEq

/-- What a handler leaves behind: the server state after the call, the response and the Go
`error` value (`none` for `nil`). -/
structure CallResult where
  server : TokenServer
  resp : TokenResponse
  err : Option String
deriving DecidableEq

/-- The server of `main`: `make(map[string]*token.Token)`. -/
def TokenServer.empty : TokenServer := ⟨∅⟩

/-- getTokens returns a list of all tokens. -/
def TokenServer.getTokens (s : TokenServer) : Multiset Token :=
  s.tokens.entries.map Sigma.snd

/-- CreateToken creates a new token. -/
def TokenServer.CreateToken (s : TokenServer) (req : Token) : CallResult :=
  match s.tokens.lookup req.Id with
  | some _ =>
    ⟨s, ⟨"Token with ID " ++ req.Id ++ " already exists", s.getTokens⟩, none⟩
  | none =>
    let s1 : TokenServer := ⟨s.tokens.insert req.Id req⟩
    ⟨s1, ⟨"Token with ID " ++ req.Id ++ " created successfully", s1.getTokens⟩, none⟩

/-- DropToken drops a token. -/
def TokenServer.DropToken (s : TokenServer) (req : Token) : CallResult :=
  match s.tokens.lookup req.Id with
  | none =>
    ⟨s, ⟨"Token with ID " ++ req.Id ++ " does not exist", s.getTokens⟩, none⟩
  | some _ =>
    let s1 : TokenServer := ⟨s.tokens.erase req.Id⟩
    ⟨s1, ⟨"Token with ID " ++ req.Id ++ " dropped successfully", s1.getTokens⟩, none⟩

/-- WriteToken writes properties to a token. The record is updated through the pointer held
in the map, which is a replacement of the entry at the key `req.Id`. -/
def TokenServer.WriteToken (s : TokenServer) (req : Token) : CallResult :=
  match s.tokens.lookup req.Id with
  | none =>
    ⟨s, ⟨"Token with ID " ++ req.Id ++ " does not exist", s.getTokens⟩, none⟩
  | some t =>
    let t1 : Token := { t with Name := req.Name, Low := req.Low, Mid := req.Mid, High := req.High }
    let t2 : Token := { t1 with PartialValue := computePartialValue t1.Name t1.Low t1.Mid }
    let t3 : Token := { t2 with FinalValue := 0 }
    let s1 : TokenServer := ⟨s.tokens.insert req.Id t3⟩
    ⟨s1, ⟨"Properties updated for token with ID " ++ req.Id, s1.getTokens⟩, none⟩

/-- ReadToken reads the final value of a token. -/
def TokenServer.ReadToken (s : TokenServer) (req : Token) : CallResult :=
  match s.tokens.lookup req.Id with
  | none =>
    ⟨s, ⟨"Token with ID " ++ req.Id ++ " does not exist", s.getTokens⟩, none⟩
  | some t =>
    let finalValue := computeFinalValue t.Name t.Mid t.High
    let t1 : Token := { t with FinalValue := Server.min finalValue t.PartialValue }
    let s1 : TokenServer := ⟨s.tokens.insert req.Id t1⟩
    ⟨s1, ⟨"Final value read for token with ID " ++ req.Id, s1.getTokens⟩, none⟩

/-- One RPC received by the server. -/
inductive Call where
  | create (req : Token)
  | drop (req : Token)
  | write (req : Token)
  | read (req : Token)
deriving DecidableEq

/-- The request message of a call. -/
def Call.req : Call → Token
  | .create r => r
  | .drop r => r
  | .write r => r
  | .read r => r

/-- The state after one call. -/
def TokenServer.step (s : TokenServer) : Call → TokenServer
  | .create r => (s.CreateToken r).server
  | .drop r => (s.DropToken r).server
  | .write r => (s.WriteToken r).server
  | .read r => (s.ReadToken r).server

/-- The state after a sequence of calls, handled one after the other. -/
def TokenServer.run (s : TokenServer) (calls : List Call) : TokenServer :=
  calls.foldl TokenServer.step s

/-- The required ordering of a domain: `low ≤ mid ≤ high`. -/
def Token.Ordered (t : Token) : Prop := t.Low ≤ t.Mid ∧ t.Mid ≤ t.High

instance (t : Token) : Decidable t.Ordered := by unfold Token.Ordered; infer_instance

/-- A call that carries a domain (create, write) carries an ordered one. -/
def Call.Ordered : Call → Prop
  | .create r => r.Ordered
  | .write r => r.Ordered
  | .drop _ => True
  | .read _ => True

instance (c : Call) : Decidable c.Ordered := by
  cases c <;> unfold Call.Ordered <;> infer_instance

/-- The token of the end-to-end example: id `t1`, name `alice`, domain `(0, 3, 6)`. -/
def exampleToken : Token := ⟨"t1", "alice", 0, 3, 6, 0, 0⟩

/-- A run of calls with ordered domains: `t1` is created, written with `(0, 5, 10)` and read,
and a second token is created and dropped in between. -/
def exampleCalls : List Call :=
  [.create ⟨"t1", "alice", 0, 3, 6, 0, 0⟩, .create ⟨"t2", "bob", 1, 1, 4, 0, 0⟩,
    .write ⟨"t1", "alice", 0, 5, 10, 0, 0⟩, .drop ⟨"t2", "", 0, 0, 0, 0, 0⟩,
    .read ⟨"t1", "", 0, 0, 0, 0, 0⟩]

/-- A run that leaves two tokens: `t1` written with `(0, 5, 10)` and `t2` as created. -/
def twoTokenCalls : List Call :=
  [.create ⟨"t1", "alice", 0, 3, 6, 0, 0⟩, .create ⟨"t2", "bob", 1, 1, 4, 0, 0⟩,
    .write ⟨"t1", "alice", 0, 5, 10, 0, 0⟩]

/-- A registry that holds the example token and nothing else. -/
def exampleServer : TokenServer := (TokenServer.empty.CreateToken exampleToken).server

/-- A registry whose only token has the domain `(0, 3, 6)` and the partial value `7`, above
the nonces of `[3, 6)`. -/
def clampServer : TokenServer :=
  (TokenServer.empty.CreateToken ⟨"t1", "alice", 0, 3, 6, 7, 0⟩).server

/-- Every record of the map has an ordered domain. -/
def OrderedMap (m : Finmap (fun _ : String => Token)) : Prop :=
  ∀ k t, m.lookup k = some t → t.Ordered

/-- The digit a decimal character stands for. -/
def digitValue (c : Char) : Nat := c.toNat - 48

/-- The number a string of decimal characters stands for. -/
def decimalValue (l : List Char) : Nat :=
  l.foldl (fun acc c => acc * 10 + digitValue c) 0

/-- Every record of the map is stored under its own id. -/
def KeyedById (m : Finmap (fun _ : String => Token)) : Prop :=
  ∀ k t, m.lookup k = some t → t.Id = k

/-- The list `tokens` is a snapshot of the registry `s`: it lists the records of a collection of
(id, record) pairs in which no id occurs twice and which holds exactly the pairs of the map. -/
def IsSnapshot (tokens : Multiset Token) (s : TokenServer) : Prop :=
  ∃ entries : Multiset (String × Token),
    tokens = entries.map Prod.snd ∧ (entries.map Prod.fst).Nodup ∧
      ∀ k t, (k, t) ∈ entries ↔ s.tokens.lookup k = some t

end Server

/-! # Embedding of `src/token/token.go`

The second server keeps the same kind of map behind a mutex; every handler locks it on entry and
unlocks it on return, so the handlers are functions of the state, taken one call at a time. -/

namespace TokenGo

/-- Modelled from the spec: `token.go` calls `Hash` and does not define it. The spec gives the
hash of a nonce as the first eight bytes, read big-endian, of the SHA-256 digest of the string
`<name> <nonce>`, which is what `Hash` of `server.go` computes. -/
def Hash (name : String) (nonce : Nat) : Nat := Server.Hash name nonce

/-- Modelled from the spec: the message type behind `Token.Domain` is generated code that is not
among the sources; it is the triple of unsigned 64-bit bounds `(low, mid, high)`. -/
structure Domain where
  Low : Nat
  Mid : Nat
  High : Nat
deriving DecidableEq

/-- Modelled from the spec: the message type `token.TokenState` is generated code that is not
among the sources. The handlers only ever store its zero value `&token.TokenState{}`. -/
structure TokenState where
deriving DecidableEq

/-- Modelled from the spec: the message type `token.Token` as `token.go` uses it: id, name,
domain, state and the two derived values. -/
structure Token where
  Id : String
  Name : String
  Domain : Domain
  State : TokenState
  PartialValue : Nat
  FinalValue : Nat
deriving DecidableEq

/-- Modelled from the spec: the message type `token.Response` as `token.go` fills it: the
message, the list of all tokens and, for a read, the final value (zero otherwise). -/
structure Response where
  Message : String
  Tokens : Multiset Token
  FinalValue : Nat
deriving DecidableEq

/-- The server of `token.go`: the map from token id to token (the mutex guards it). -/
structure tokenServer where
  tokens : Finmap (fun _ : String => Token)
deriving DecidableEq

/-- What a handler leaves behind: the state after the call, the response and the Go `error`. -/
structure CallResult where
  server : tokenServer
  resp : Response
  err : Option String
deriving DecidableEq

/-- The `for i := low; i < high; i++` loop of `computePartialValue`: the state is the loop
variable `i` and `minHash`; `fuel` bounds the number of iterations. -/
def computePartialValueLoop (name : String) (high : Nat) : Nat → Nat → Nat → Nat
  | 0, _, minHash => minHash
  | fuel + 1, i, minHash =>
    if i < high then
      let hash := Hash name i
      if hash < minHash then computePartialValueLoop name high fuel (i + 1) hash
      else computePartialValueLoop name high fuel (i + 1) minHash
    else minHash

/-- computePartialValue computes the partial value of the token using the given name and
range: the least hash seen, starting from the maximum possible value. -/
def computePartialValue (name : String) (low high : Nat) : Nat :=
  computePartialValueLoop name high (high - low) low Server.maxUint64

/-- The `for i := low; i < high; i++` loop of `computeFinalValue`. -/
def computeFinalValueLoop (name : String) (high : Nat) : Nat → Nat → Nat → Nat
  | 0, _, minHash => minHash
  | fuel + 1, i, minHash =>
    if i < high then
      let hash := Hash name i
      if hash < minHash then computeFinalValueLoop name high fuel (i + 1) hash
      else computeFinalValueLoop name high fuel (i + 1) minHash
    else minHash

/-- computeFinalValue computes the final value of the token using the given name and range. -/
def computeFinalValue (name : String) (low high : Nat) : Nat :=
  computeFinalValueLoop name high (high - low) low Server.maxUint64

/-- getTokensList returns the list of tokens. -/
def tokenServer.getTokensList (s : tokenServer) : Multiset Token :=
  s.tokens.entries.map Sigma.snd

/-- CreateToken creates a new token with the given ID. -/
def tokenServer.CreateToken (s : tokenServer) (req : Token) : CallResult :=
  match s.tokens.lookup req.Id with
  | some _ =>
    ⟨s, ⟨"Token with the same ID already exists", s.getTokensList, 0⟩, none⟩
  | none =>
    let s1 : tokenServer :=
      ⟨s.tokens.insert req.Id ⟨req.Id, req.Name, req.Domain, {}, 0, 0⟩⟩
    ⟨s1, ⟨"Token created successfully", s1.getTokensList, 0⟩, none⟩

/-- DropToken drops the token with the given ID. -/
def tokenServer.DropToken (s : tokenServer) (req : Token) : CallResult :=
  match s.tokens.lookup req.Id with
  | none =>
    ⟨s, ⟨"Token not found", s.getTokensList, 0⟩, none⟩
  | some _ =>
    let s1 : tokenServer := ⟨s.tokens.erase req.Id⟩
    ⟨s1, ⟨"Token dropped successfully", s1.getTokensList, 0⟩, none⟩

/-- WriteToken writes properties to the token with the given ID. -/
def tokenServer.WriteToken (s : tokenServer) (req : Token) : CallResult :=
  match s.tokens.lookup req.Id with
  | none =>
    ⟨s, ⟨"Token not found", s.getTokensList, 0⟩, none⟩
  | some t =>
    let t1 : Token := { t with Name := req.Name, Domain := req.Domain, State := {} }
    let t2 : Token :=
      { t1 with PartialValue := computePartialValue t1.Name t1.Domain.Low t1.Domain.Mid }
    let s1 : tokenServer := ⟨s.tokens.insert req.Id t2⟩
    ⟨s1, ⟨"Token properties updated successfully", s1.getTokensList, 0⟩, none⟩

/-- ReadToken reads the final value of the token with the given ID. -/
def tokenServer.ReadToken (s : tokenServer) (req : Token) : CallResult :=
  match s.tokens.lookup req.Id with
  | none =>
    ⟨s, ⟨"Token not found", s.getTokensList, 0⟩, none⟩
  | some t =>
    let finalValue := computeFinalValue t.Name t.Domain.Mid t.Domain.High
    let t1 : Token := { t with FinalValue := finalValue }
    let s1 : tokenServer := ⟨s.tokens.insert req.Id t1⟩
    ⟨s1, ⟨"Final value retrieved successfully", s1.getTokensList, finalValue⟩, none⟩

/-- The server of `main`: `make(map[string]*token.Token)`. -/
def tokenServer.empty : tokenServer := ⟨∅⟩

/-- The token of the end-to-end example as a request of this server. -/
def exampleRequest : Token := ⟨"t1", "alice", ⟨0, 3, 6⟩, {}, 0, 0⟩

/-- The example token created, written and read: its final value is set. -/
def readServer : tokenServer :=
  (((tokenServer.empty.CreateToken exampleRequest).server.WriteToken
    exampleRequest).server.ReadToken exampleRequest).server

end TokenGo

namespace Server

/-! ## Facts about `Hash` and the scans -/

/-- Reading big-endian bytes stays below the number of values of that many bytes. -/
theorem foldl_bytes_lt (l : List Nat) (acc k : Nat) (h : acc < 256 ^ k) :
    l.foldl (fun acc x => acc * 256 + x % 256) acc < 256 ^ (k + l.length) := by
  induction l generalizing acc k with
  | nil => simpa using h
  | cons b rest ih =>
    have hb : b % 256 < 256 := Nat.mod_lt _ (by decide)
    have hstep : acc * 256 + b % 256 < 256 ^ (k + 1) := by
      have hle : (acc + 1) * 256 ≤ 256 ^ k * 256 := Nat.mul_le_mul_right 256 h
      rw [Nat.pow_succ]
      omega
    have := ih (acc * 256 + b % 256) (k + 1) hstep
    simpa [List.foldl, Nat.add_assoc, Nat.add_comm 1] using this

/-- The value read by `binary.BigEndian.Uint64` is a `uint64`. -/
theorem bigEndianUint64_le (b : List Nat) : bigEndianUint64 b ≤ maxUint64 := by
  have h := foldl_bytes_lt (b.take 8) 0 0 (by decide)
  have hlen : (b.take 8).length ≤ 8 := by simp [List.length_take]
  have hpow : 256 ^ (0 + (b.take 8).length) ≤ 256 ^ 8 :=
    Nat.pow_le_pow_right (by decide) (by omega)
  have h8 : (256 : Nat) ^ 8 = 2 ^ 64 := by norm_num
  unfold bigEndianUint64 maxUint64
  omega

/-- Every hash is a `uint64`: it never exceeds the initial `minHash`. -/
theorem Hash_le_maxUint64 (name : String) (nonce : Nat) : Hash name nonce ≤ maxUint64 :=
  bigEndianUint64_le _

/-- The model of `crypto/sha256` on the test vector `abc` of FIPS 180-4: the digest starts
with the bytes `ba 78 16 bf` and ends with `f2 00 15 ad`. -/
theorem sha256_abc :
    sha256 (utf8 "abc") =
      [186, 120, 22, 191, 143, 1, 207, 234, 65, 65, 64, 222, 93, 174, 34, 35,
        176, 3, 97, 163, 150, 23, 122, 156, 180, 16, 255, 97, 242, 0, 21, 173] := by
  decide!

/-- The hashes of the name `alice` with the nonces `0` to `5`; the preimage of the first is the
string `alice 0`. -/
theorem Hash_alice :
    hashInput "alice" 0 = "alice 0" ∧
    Hash "alice" 0 = 15254557049370585847 ∧ Hash "alice" 1 = 16730563294436247669 ∧
    Hash "alice" 2 = 15161050984476538163 ∧ Hash "alice" 3 = 3971539619432060203 ∧
    Hash "alice" 4 = 6552703576812185206 ∧ Hash "alice" 5 = 16529619667405590207 := by
  decide!

/-- Fuel beyond the distance to the bound changes nothing: the loop has already left through
its guard `x < mid`. -/
theorem computePartialValueLoop_fuel (name : String) (mid : Nat) :
    ∀ (fuel x minHash v calls : Nat), mid ≤ x + fuel →
      computePartialValueLoop name mid fuel x minHash v calls =
        computePartialValueLoop name mid (mid - x) x minHash v calls := by
  intro fuel
  induction fuel with
  | zero =>
    intro x minHash v calls hf
    have h0 : mid - x = 0 := by omega
    rw [h0]
  | succ n ih =>
    intro x minHash v calls hf
    by_cases hx : x < mid
    · have hsucc : mid - x = (mid - (x + 1)) + 1 := by omega
      rw [hsucc]
      simp only [computePartialValueLoop, hx, if_true]
      rw [ih (x + 1) _ _ _ (by omega), ih (x + 1) _ _ _ (by omega)]
    · have h0 : mid - x = 0 := by omega
      rw [h0]
      simp only [computePartialValueLoop, hx, if_false]

/-- The two loops are the same function of their arguments. -/
theorem computeFinalValueLoop_eq (name : String) (high fuel x minHash v calls : Nat) :
    computeFinalValueLoop name high fuel x minHash v calls =
      computePartialValueLoop name high fuel x minHash v calls := by
  induction fuel generalizing x minHash v calls with
  | zero => rfl
  | succ n ih =>
    simp only [computeFinalValueLoop, computePartialValueLoop, ih]

/-- The final-value scan over a range is the partial-value scan over that range. -/
theorem computeFinalValue_eq_computePartialValue (name : String) (a b : Nat) :
    computeFinalValue name a b = computePartialValue name a b := by
  simp only [computeFinalValue, computePartialValue, computeFinalValueLoop_eq]

/-- Invariant of the scan, with enough fuel to reach `mid`: either no hash from `x` on was
strictly below `minHash` and the value is the one held on entry, or the value is the first
nonce from `x` on whose hash is the least one, and that hash is strictly below `minHash`. -/
theorem computePartialValueLoop_spec (name : String) (mid : Nat) :
    ∀ (fuel x minHash v calls : Nat), mid ≤ x + fuel →
      ((computePartialValueLoop name mid fuel x minHash v calls).1 = v ∧
        ∀ y, x ≤ y → y < mid → minHash ≤ Hash name y) ∨
      (x ≤ (computePartialValueLoop name mid fuel x minHash v calls).1 ∧
        (computePartialValueLoop name mid fuel x minHash v calls).1 < mid ∧
        Hash name (computePartialValueLoop name mid fuel x minHash v calls).1 < minHash ∧
        (∀ y, x ≤ y → y < mid →
          Hash name (computePartialValueLoop name mid fuel x minHash v calls).1 ≤ Hash name y) ∧
        (∀ y, x ≤ y → y < (computePartialValueLoop name mid fuel x minHash v calls).1 →
          Hash name (computePartialValueLoop name mid fuel x minHash v calls).1 < Hash name y)) := by
  intro fuel
  induction fuel with
  | zero =>
    intro x minHash v calls hf
    left
    exact ⟨rfl, fun y h1 h2 => by omega⟩
  | succ n ih =>
    intro x minHash v calls hf
    by_cases hx : x < mid
    · by_cases hh : Hash name x < minHash
      · have hstep : computePartialValueLoop name mid (n + 1) x minHash v calls =
            computePartialValueLoop name mid n (x + 1) (Hash name x) x (calls + 1) := by
          simp only [computePartialValueLoop, hx, hh, if_true]
        rw [hstep]
        rcases ih (x + 1) (Hash name x) x (calls + 1) (by omega) with ⟨hr, hall⟩ | ⟨h1, h2, h3, h4, h5⟩
        · right
          rw [hr]
          refine ⟨le_refl _, hx, hh, ?_, ?_⟩
          · intro y hy1 hy2
            rcases Nat.eq_or_lt_of_le hy1 with heq | hlt
            · rw [heq]
            · exact hall y hlt hy2
          · intro y hy1 hy2
            omega
        · right
          refine ⟨by omega, h2, by omega, ?_, ?_⟩
          · intro y hy1 hy2
            rcases Nat.eq_or_lt_of_le hy1 with heq | hlt
            · rw [← heq]; omega
            · exact h4 y hlt hy2
          · intro y hy1 hy2
            rcases Nat.eq_or_lt_of_le hy1 with heq | hlt
            · rw [← heq]; exact h3
            · exact h5 y hlt hy2
      · have hstep : computePartialValueLoop name mid (n + 1) x minHash v calls =
            computePartialValueLoop name mid n (x + 1) minHash v (calls + 1) := by
          simp only [computePartialValueLoop, hx, hh, if_true, if_false]
        rw [hstep]
        rcases ih (x + 1) minHash v (calls + 1) (by omega) with ⟨hr, hall⟩ | ⟨h1, h2, h3, h4, h5⟩
        · left
          refine ⟨hr, ?_⟩
          intro y hy1 hy2
          rcases Nat.eq_or_lt_of_le hy1 with heq | hlt
          · rw [← heq]; omega
          · exact hall y hlt hy2
        · right
          refine ⟨by omega, h2, h3, ?_, ?_⟩
          · intro y hy1 hy2
            rcases Nat.eq_or_lt_of_le hy1 with heq | hlt
            · rw [← heq]; omega
            · exact h4 y hlt hy2
          · intro y hy1 hy2
            rcases Nat.eq_or_lt_of_le hy1 with heq | hlt
            · rw [← heq]; omega
            · exact h5 y hlt hy2
    · have hstep : computePartialValueLoop name mid (n + 1) x minHash v calls = (v, calls) := by
        simp only [computePartialValueLoop, hx, if_false]
      rw [hstep]
      left
      exact ⟨rfl, fun y h1 h2 => by omega⟩

/-- What `computePartialValue` returns: `0` when every hash of the range equals the initial
`minHash` (no hash is strictly below it), and otherwise the first nonce of the range whose
hash is the least one. -/
theorem computePartialValue_spec (name : String) (lo hi : Nat) :
    (computePartialValue name lo hi = 0 ∧ ∀ y, lo ≤ y → y < hi → Hash name y = maxUint64) ∨
    (lo ≤ computePartialValue name lo hi ∧ computePartialValue name lo hi < hi ∧
      Hash name (computePartialValue name lo hi) < maxUint64 ∧
      (∀ y, lo ≤ y → y < hi → Hash name (computePartialValue name lo hi) ≤ Hash name y) ∧
      (∀ y, lo ≤ y → y < computePartialValue name lo hi →
        Hash name (computePartialValue name lo hi) < Hash name y)) := by
  unfold computePartialValue
  rcases computePartialValueLoop_spec name hi (hi - lo) lo maxUint64 0 0 (by omega) with
    ⟨hr, hall⟩ | h
  · left
    exact ⟨hr, fun y h1 h2 => Nat.le_antisymm (Hash_le_maxUint64 name y) (hall y h1 h2)⟩
  · right
    exact h

/-- A range with some hash strictly below the initial `minHash` yields a nonce of the range. -/
theorem computePartialValue_mem_range (name : String) (lo hi : Nat)
    (hsome : ∃ y, lo ≤ y ∧ y < hi ∧ Hash name y < maxUint64) :
    lo ≤ computePartialValue name lo hi ∧ computePartialValue name lo hi < hi := by
  rcases computePartialValue_spec name lo hi with ⟨_, hall⟩ | ⟨h1, h2, _⟩
  · obtain ⟨y, hy1, hy2, hy3⟩ := hsome
    have := hall y hy1 hy2
    omega
  · exact ⟨h1, h2⟩

/-- A range all of whose hashes equal the initial `minHash` yields `0`, inside the range or not. -/
theorem computePartialValue_eq_zero_of_all_max (name : String) (lo hi : Nat)
    (hall : ∀ y, lo ≤ y → y < hi → Hash name y = maxUint64) :
    computePartialValue name lo hi = 0 := by
  rcases computePartialValue_spec name lo hi with ⟨h0, _⟩ | ⟨h1, h2, h3, _⟩
  · exact h0
  · have := hall _ h1 h2
    omega

/-- The result of the scan lies in every non-empty range `[lo, hi)` exactly when no nonce from
`1` on hashes to the initial `minHash`, the largest `uint64`. Whether SHA-256 has such an input
is not settled here. -/
theorem computePartialValue_range_iff_no_max_hash (name : String) :
    (∀ lo hi, lo < hi → hi ≤ maxUint64 →
      lo ≤ computePartialValue name lo hi ∧ computePartialValue name lo hi < hi) ↔
    (∀ x, 1 ≤ x → x < maxUint64 → Hash name x ≠ maxUint64) := by
  constructor
  · intro h x hx1 hx2 hmax
    have hz : computePartialValue name x (x + 1) = 0 :=
      computePartialValue_eq_zero_of_all_max name x (x + 1) (fun y hy1 hy2 => by
        have : y = x := by omega
        rw [this]; exact hmax)
    have := h x (x + 1) (by omega) (by omega)
    omega
  · intro h lo hi hlt hhi
    rcases computePartialValue_spec name lo hi with ⟨h0, hall⟩ | ⟨h1, h2, _⟩
    · by_cases hlo : lo = 0
      · omega
      · exact absurd (hall lo (le_refl _) hlt) (h lo (by omega) (by omega))
    · exact ⟨h1, h2⟩

/-! ## Facts about the handlers -/

theorem CreateToken_of_present (s : TokenServer) (req t : Token)
    (h : s.tokens.lookup req.Id = some t) :
    s.CreateToken req =
      ⟨s, ⟨"Token with ID " ++ req.Id ++ " already exists", s.getTokens⟩, none⟩ := by
  simp only [TokenServer.CreateToken, h]

theorem CreateToken_of_absent (s : TokenServer) (req : Token)
    (h : s.tokens.lookup req.Id = none) :
    s.CreateToken req =
      ⟨⟨s.tokens.insert req.Id req⟩, ⟨"Token with ID " ++ req.Id ++ " created successfully",
        TokenServer.getTokens ⟨s.tokens.insert req.Id req⟩⟩, none⟩ := by
  simp only [TokenServer.CreateToken, h]

theorem DropToken_of_present (s : TokenServer) (req t : Token)
    (h : s.tokens.lookup req.Id = some t) :
    s.DropToken req =
      ⟨⟨s.tokens.erase req.Id⟩, ⟨"Token with ID " ++ req.Id ++ " dropped successfully",
        TokenServer.getTokens ⟨s.tokens.erase req.Id⟩⟩, none⟩ := by
  simp only [TokenServer.DropToken, h]

theorem DropToken_of_absent (s : TokenServer) (req : Token)
    (h : s.tokens.lookup req.Id = none) :
    s.DropToken req =
      ⟨s, ⟨"Token with ID " ++ req.Id ++ " does not exist", s.getTokens⟩, none⟩ := by
  simp only [TokenServer.DropToken, h]

theorem WriteToken_of_present (s : TokenServer) (req t : Token)
    (h : s.tokens.lookup req.Id = some t) :
    s.WriteToken req =
      ⟨⟨s.tokens.insert req.Id (⟨t.Id, req.Name, req.Low, req.Mid, req.High,
          computePartialValue req.Name req.Low req.Mid, 0⟩ : Token)⟩,
        ⟨"Properties updated for token with ID " ++ req.Id,
          TokenServer.getTokens ⟨s.tokens.insert req.Id (⟨t.Id, req.Name, req.Low, req.Mid, req.High,
          computePartialValue req.Name req.Low req.Mid, 0⟩ : Token)⟩⟩, none⟩ := by
  simp only [TokenServer.WriteToken, h]

theorem WriteToken_of_absent (s : TokenServer) (req : Token)
    (h : s.tokens.lookup req.Id = none) :
    s.WriteToken req =
      ⟨s, ⟨"Token with ID " ++ req.Id ++ " does not exist", s.getTokens⟩, none⟩ := by
  simp only [TokenServer.WriteToken, h]

theorem ReadToken_of_present (s : TokenServer) (req t : Token)
    (h : s.tokens.lookup req.Id = some t) :
    s.ReadToken req =
      ⟨⟨s.tokens.insert req.Id (⟨t.Id, t.Name, t.Low, t.Mid, t.High, t.PartialValue,
          Server.min (computeFinalValue t.Name t.Mid t.High) t.PartialValue⟩ : Token)⟩,
        ⟨"Final value read for token with ID " ++ req.Id,
          TokenServer.getTokens ⟨s.tokens.insert req.Id (⟨t.Id, t.Name, t.Low, t.Mid, t.High, t.PartialValue,
          Server.min (computeFinalValue t.Name t.Mid t.High) t.PartialValue⟩ : Token)⟩⟩, none⟩ := by
  simp only [TokenServer.ReadToken, h]

theorem ReadToken_of_absent (s : TokenServer) (req : Token)
    (h : s.tokens.lookup req.Id = none) :
    s.ReadToken req =
      ⟨s, ⟨"Token with ID " ++ req.Id ++ " does not exist", s.getTokens⟩, none⟩ := by
  simp only [TokenServer.ReadToken, h]

/-- Removing a key that was just inserted into a map without it gives the map back. -/
theorem erase_insert_of_absent (m : Finmap (fun _ : String => Token)) (k : String) (t : Token)
    (h : m.lookup k = none) : (m.insert k t).erase k = m := by
  apply Finmap.ext_lookup
  intro x
  by_cases hx : x = k
  · subst hx
    rw [Finmap.lookup_erase, h]
  · rw [Finmap.lookup_erase_ne hx, Finmap.lookup_insert_of_ne _ hx]

/-- The Go function `min` of `server.go` computes the minimum of its two arguments. -/
theorem min_eq_Nat_min (a b : Nat) : Server.min a b = Nat.min a b := by
  unfold Server.min
  by_cases h : a < b
  · rw [if_pos h]
    exact (Nat.min_eq_left (Nat.le_of_lt h)).symm
  · rw [if_neg h]
    exact (Nat.min_eq_right (Nat.le_of_not_lt h)).symm

/-- The state after a write followed by a read of the same token: the record holds the
written name and domain, the partial value of the write, and as final value the smaller of the
scan over `[mid, high)` and that partial value. -/
theorem lookup_ReadToken_WriteToken (s : TokenServer) (req rreq t : Token)
    (hpresent : s.tokens.lookup req.Id = some t) (hid : rreq.Id = req.Id) :
    ((s.WriteToken req).server.ReadToken rreq).server.tokens.lookup req.Id =
      some ⟨t.Id, req.Name, req.Low, req.Mid, req.High,
        computePartialValue req.Name req.Low req.Mid,
        Server.min (computeFinalValue req.Name req.Mid req.High)
          (computePartialValue req.Name req.Low req.Mid)⟩ := by
  have hs : (s.WriteToken req).server = ⟨s.tokens.insert req.Id ⟨t.Id, req.Name, req.Low,
      req.Mid, req.High, computePartialValue req.Name req.Low req.Mid, 0⟩⟩ := by
    rw [WriteToken_of_present s req t hpresent]
  have hl : (s.WriteToken req).server.tokens.lookup rreq.Id =
      some ⟨t.Id, req.Name, req.Low, req.Mid, req.High,
        computePartialValue req.Name req.Low req.Mid, 0⟩ := by
    rw [hs, hid, Finmap.lookup_insert]
  rw [ReadToken_of_present _ rreq _ hl, hid]
  exact Finmap.lookup_insert _

theorem OrderedMap_insert (m : Finmap (fun _ : String => Token)) (k : String) (t : Token)
    (hm : OrderedMap m) (ht : t.Ordered) : OrderedMap (m.insert k t) := by
  intro k1 t1 h
  by_cases hk : k1 = k
  · subst hk
    rw [Finmap.lookup_insert] at h
    cases h
    exact ht
  · rw [Finmap.lookup_insert_of_ne _ hk] at h
    exact hm k1 t1 h

theorem OrderedMap_erase (m : Finmap (fun _ : String => Token)) (k : String)
    (hm : OrderedMap m) : OrderedMap (m.erase k) := by
  intro k1 t1 h
  by_cases hk : k1 = k
  · subst hk
    rw [Finmap.lookup_erase] at h
    cases h
  · rw [Finmap.lookup_erase_ne hk] at h
    exact hm k1 t1 h

/-- One call with an ordered domain keeps every domain of the registry ordered. -/
theorem OrderedMap_step (s : TokenServer) (c : Call) (hs : OrderedMap s.tokens)
    (hc : c.Ordered) : OrderedMap (s.step c).tokens := by
  cases c with
  | create r =>
    cases hl : s.tokens.lookup r.Id with
    | none =>
      simp only [TokenServer.step, CreateToken_of_absent s r hl]
      exact OrderedMap_insert _ _ _ hs hc
    | some t =>
      simp only [TokenServer.step, CreateToken_of_present s r t hl]
      exact hs
  | drop r =>
    cases hl : s.tokens.lookup r.Id with
    | none =>
      simp only [TokenServer.step, DropToken_of_absent s r hl]
      exact hs
    | some t =>
      simp only [TokenServer.step, DropToken_of_present s r t hl]
      exact OrderedMap_erase _ _ hs
  | write r =>
    cases hl : s.tokens.lookup r.Id with
    | none =>
      simp only [TokenServer.step, WriteToken_of_absent s r hl]
      exact hs
    | some t =>
      simp only [TokenServer.step, WriteToken_of_present s r t hl]
      exact OrderedMap_insert _ _ _ hs hc
  | read r =>
    cases hl : s.tokens.lookup r.Id with
    | none =>
      simp only [TokenServer.step, ReadToken_of_absent s r hl]
      exact hs
    | some t =>
      simp only [TokenServer.step, ReadToken_of_present s r t hl]
      exact OrderedMap_insert _ _ _ hs (hs r.Id t hl)

/-- A sequence of calls with ordered domains keeps every domain of the registry ordered. -/
theorem OrderedMap_run (calls : List Call) :
    ∀ s : TokenServer, OrderedMap s.tokens → (∀ c ∈ calls, c.Ordered) →
      OrderedMap (s.run calls).tokens := by
  induction calls with
  | nil => intro s hs _; exact hs
  | cons c rest ih =>
    intro s hs hall
    have hstep := OrderedMap_step s c hs (hall c (List.mem_cons_self _ _))
    exact ih (s.step c) hstep (fun c1 hc1 => hall c1 (List.mem_cons_of_mem _ hc1))

/-! ## The claims -/

/-- C1 (as amended): in a registry that holds a token under the id of a write request with
`low ≤ mid ≤ high`, a `WriteToken` followed by a `ReadToken` of that id leaves as `FinalValue`
the smaller of `computeFinalValue(name, mid, high)` and the `PartialValue` set by the write,
`computePartialValue(name, low, mid)`: the minimum of the two numbers. -/
theorem C1_ReadToken_after_WriteToken_clamped (s : TokenServer) (req rreq t : Token)
    (hpresent : s.tokens.lookup req.Id = some t) (hid : rreq.Id = req.Id)
    (_hlow : req.Low ≤ req.Mid) (_hhigh : req.Mid ≤ req.High) :
    (((s.WriteToken req).server.ReadToken rreq).server.tokens.lookup req.Id).map
        Token.FinalValue =
      some (Nat.min (computeFinalValue req.Name req.Mid req.High)
        (computePartialValue req.Name req.Low req.Mid)) := by
  rw [lookup_ReadToken_WriteToken s req rreq t hpresent hid, ← min_eq_Nat_min]
  rfl

/-- Witness of C1 (as amended): the example token, written with the domain `(1, 3, 3)` and
read back. The scan of the empty range `[3, 3)` gives `0`, the partial value is `2`, and the
final value is the smaller of the two, `0`. -/
theorem C1_ReadToken_after_WriteToken_clamped_witness :
    (((exampleServer.WriteToken ⟨"t1", "alice", 1, 3, 3, 0, 0⟩).server.ReadToken
        ⟨"t1", "", 0, 0, 0, 0, 0⟩).server.tokens.lookup "t1").map Token.FinalValue =
      some (Nat.min (computeFinalValue "alice" 3 3) (computePartialValue "alice" 1 3)) ∧
    computeFinalValue "alice" 3 3 = 0 ∧ computePartialValue "alice" 1 3 = 2 ∧
    Nat.min (computeFinalValue "alice" 3 3) (computePartialValue "alice" 1 3) = 0 :=
  ⟨C1_ReadToken_after_WriteToken_clamped exampleServer ⟨"t1", "alice", 1, 3, 3, 0, 0⟩
      ⟨"t1", "", 0, 0, 0, 0, 0⟩ exampleToken (by decide) rfl (by decide) (by decide),
    by decide!, by decide!, by decide!⟩

/-- C1 fails as stated: after `Create("t1", "alice", 0, 3, 6)` and `Write("t1", "alice", 0, 3, 6)`,
`Read("t1")` leaves `FinalValue = 2` (the partial value, a nonce of `[0, 3)`), whereas
`computeFinalValue("alice", 3, 6) = 3`. -/
theorem C1_counterexample :
    (((exampleServer.WriteToken ⟨"t1", "alice", 0, 3, 6, 0, 0⟩).server.ReadToken
        ⟨"t1", "", 0, 0, 0, 0, 0⟩).server.tokens.lookup "t1").map Token.FinalValue = some 2 ∧
    computeFinalValue "alice" 3 6 = 3 ∧
    (((exampleServer.WriteToken ⟨"t1", "alice", 0, 3, 6, 0, 0⟩).server.ReadToken
        ⟨"t1", "", 0, 0, 0, 0, 0⟩).server.tokens.lookup "t1").map Token.FinalValue ≠
      some (computeFinalValue "alice" 3 6) := by
  decide!

/-- C2: for a registry that holds a token under the id of the request, `WriteToken` leaves
under that id the record with the same `Id`, the name and the domain of the request,
`PartialValue = computePartialValue(name, low, mid)` and `FinalValue = 0`, whatever the record
held before. -/
theorem C2_WriteToken_replaces_and_resets (s : TokenServer) (req t : Token)
    (hpresent : s.tokens.lookup req.Id = some t) :
    (s.WriteToken req).server.tokens.lookup req.Id =
      some ⟨t.Id, req.Name, req.Low, req.Mid, req.High,
        computePartialValue req.Name req.Low req.Mid, 0⟩ := by
  rw [WriteToken_of_present s req t hpresent]
  exact Finmap.lookup_insert _

/-- Witness of C2: a write to the example registry, whose token has a non-zero final value
after a first write and read. -/
theorem C2_WriteToken_replaces_and_resets_witness :
    (((exampleServer.WriteToken exampleToken).server.ReadToken exampleToken).server.WriteToken
        ⟨"t1", "bob", 1, 4, 9, 0, 0⟩).server.tokens.lookup "t1" =
      some ⟨"t1", "bob", 1, 4, 9, computePartialValue "bob" 1 4, 0⟩ :=
  C2_WriteToken_replaces_and_resets
    ((exampleServer.WriteToken exampleToken).server.ReadToken exampleToken).server
    ⟨"t1", "bob", 1, 4, 9, 0, 0⟩ ⟨"t1", "alice", 0, 3, 6, 2, 2⟩ (by decide!)

/-- C4: for `lo < hi`, the nonce returned by `computePartialValue(name, lo, hi)` has a hash no
larger than the hash of any nonce of `[lo, hi)`, and every nonce of the range before it has a
strictly larger hash (the first minimum wins). -/
theorem C4_computePartialValue_first_minimum (name : String) (lo hi : Nat) (_h : lo < hi) :
    (∀ y, lo ≤ y → y < hi →
      Hash name (computePartialValue name lo hi) ≤ Hash name y) ∧
    (∀ y, lo ≤ y → y < computePartialValue name lo hi →
      Hash name y > Hash name (computePartialValue name lo hi)) := by
  rcases computePartialValue_spec name lo hi with ⟨h0, hall⟩ | ⟨_, _, _, h4, h5⟩
  · constructor
    · intro y hy1 hy2
      rw [hall y hy1 hy2]
      exact Hash_le_maxUint64 _ _
    · intro y _ hy2
      rw [h0] at hy2
      omega
  · exact ⟨h4, h5⟩

/-- Witness of C4: the scan of `[3, 6)` for the name `alice`. -/
theorem C4_computePartialValue_first_minimum_witness :
    (∀ y, 3 ≤ y → y < 6 →
      Hash "alice" (computePartialValue "alice" 3 6) ≤ Hash "alice" y) ∧
    (∀ y, 3 ≤ y → y < computePartialValue "alice" 3 6 →
      Hash "alice" y > Hash "alice" (computePartialValue "alice" 3 6)) :=
  C4_computePartialValue_first_minimum "alice" 3 6 (by decide)

/-- C5: on an empty range (`lo = hi`) both scans return `0`, and they do so without a single
evaluation of `Hash`; the functions are total, so nothing fails. -/
theorem C5_empty_range_returns_zero (name : String) (lo : Nat) :
    computePartialValue name lo lo = 0 ∧ computeFinalValue name lo lo = 0 ∧
    computePartialValueHashCalls name lo lo = 0 ∧ computeFinalValueHashCalls name lo lo = 0 := by
  simp [computePartialValue, computeFinalValue, computePartialValueHashCalls,
    computeFinalValueHashCalls, computePartialValueLoop, computeFinalValueLoop]

/-- C6: for a registry that already holds a token under the id of the request, `CreateToken`
changes nothing: the state after the call is the state before it, the record found under the id
is still there, no error is returned and the message says that the token already exists. -/
theorem C6_CreateToken_existing_unchanged (s : TokenServer) (req t : Token)
    (hpresent : s.tokens.lookup req.Id = some t) :
    (s.CreateToken req).server = s ∧
    (s.CreateToken req).server.tokens.lookup req.Id = some t ∧
    (s.CreateToken req).err = none ∧
    (s.CreateToken req).resp.Message = "Token with ID " ++ req.Id ++ " already exists" := by
  rw [CreateToken_of_present s req t hpresent]
  exact ⟨rfl, hpresent, rfl, rfl⟩

/-- Witness of C6: a second create of `t1` with another name, domain and derived values. -/
theorem C6_CreateToken_existing_unchanged_witness :
    (exampleServer.CreateToken ⟨"t1", "bob", 5, 6, 7, 8, 9⟩).server = exampleServer ∧
    (exampleServer.CreateToken ⟨"t1", "bob", 5, 6, 7, 8, 9⟩).server.tokens.lookup "t1" =
      some exampleToken ∧
    (exampleServer.CreateToken ⟨"t1", "bob", 5, 6, 7, 8, 9⟩).err = none ∧
    (exampleServer.CreateToken ⟨"t1", "bob", 5, 6, 7, 8, 9⟩).resp.Message =
      "Token with ID " ++ "t1" ++ " already exists" :=
  C6_CreateToken_existing_unchanged exampleServer ⟨"t1", "bob", 5, 6, 7, 8, 9⟩ exampleToken
    (by decide)

/-- C7 fails on the code: `CreateToken` stores the request as it came. A create request for a
new id that carries `PartialValue = 7` and `FinalValue = 9` leaves a record with these derived
values, not with zeroes. -/
theorem C7_CreateToken_stores_request_derived_values :
    (TokenServer.empty.CreateToken ⟨"t1", "alice", 1, 3, 6, 7, 9⟩).server.tokens.lookup "t1" =
      some ⟨"t1", "alice", 1, 3, 6, 7, 9⟩ ∧
    (TokenServer.empty.CreateToken ⟨"t1", "alice", 1, 3, 6, 7, 9⟩).resp.Tokens =
      {⟨"t1", "alice", 1, 3, 6, 7, 9⟩} := by
  decide

/-- C8: in a registry without `id`, `CreateToken(id, ...)` followed by `DropToken(id)` gives the
registry back, the drop returning its token list (the empty list when the registry was empty);
a `ReadToken(id)` or `WriteToken(id, ...)` after that reports that the token does not exist and
leaves the registry as it is. -/
theorem C8_create_then_drop_restores (s : TokenServer) (c d r w : Token)
    (habsent : s.tokens.lookup c.Id = none)
    (hd : d.Id = c.Id) (hr : r.Id = c.Id) (hw : w.Id = c.Id) :
    ((s.CreateToken c).server.DropToken d).server = s ∧
    ((s.CreateToken c).server.DropToken d).resp.Tokens = s.getTokens ∧
    (s = TokenServer.empty → ((s.CreateToken c).server.DropToken d).resp.Tokens = 0) ∧
    ((s.CreateToken c).server.DropToken d).server.ReadToken r =
      ⟨s, ⟨"Token with ID " ++ c.Id ++ " does not exist", s.getTokens⟩, none⟩ ∧
    ((s.CreateToken c).server.DropToken d).server.WriteToken w =
      ⟨s, ⟨"Token with ID " ++ c.Id ++ " does not exist", s.getTokens⟩, none⟩ := by
  have hc : (s.CreateToken c).server = ⟨s.tokens.insert c.Id c⟩ := by
    rw [CreateToken_of_absent s c habsent]
  have hl : (s.CreateToken c).server.tokens.lookup d.Id = some c := by
    rw [hc, hd, Finmap.lookup_insert]
  have hdrop : (s.CreateToken c).server.DropToken d =
      ⟨s, ⟨"Token with ID " ++ c.Id ++ " dropped successfully", s.getTokens⟩, none⟩ := by
    rw [DropToken_of_present _ d c hl, hd, hc]
    simp only [erase_insert_of_absent s.tokens c.Id c habsent]
  have hs : ((s.CreateToken c).server.DropToken d).server = s := by rw [hdrop]
  have hrl : s.tokens.lookup r.Id = none := by rw [hr]; exact habsent
  have hwl : s.tokens.lookup w.Id = none := by rw [hw]; exact habsent
  refine ⟨hs, by rw [hdrop], ?_, ?_, ?_⟩
  · intro he
    rw [hdrop, he]
    rfl
  · rw [hs, ReadToken_of_absent s r hrl, hr]
  · rw [hs, WriteToken_of_absent s w hwl, hw]

/-- Witness of C8: the example token created in and dropped from the empty registry. -/
theorem C8_create_then_drop_restores_witness :
    ((TokenServer.empty.CreateToken exampleToken).server.DropToken exampleToken).server =
      TokenServer.empty ∧
    ((TokenServer.empty.CreateToken exampleToken).server.DropToken exampleToken).resp.Tokens =
      TokenServer.empty.getTokens ∧
    (TokenServer.empty = TokenServer.empty →
      ((TokenServer.empty.CreateToken exampleToken).server.DropToken
        exampleToken).resp.Tokens = 0) ∧
    ((TokenServer.empty.CreateToken exampleToken).server.DropToken
        exampleToken).server.ReadToken exampleToken =
      ⟨TokenServer.empty, ⟨"Token with ID " ++ exampleToken.Id ++ " does not exist",
        TokenServer.empty.getTokens⟩, none⟩ ∧
    ((TokenServer.empty.CreateToken exampleToken).server.DropToken
        exampleToken).server.WriteToken exampleToken =
      ⟨TokenServer.empty, ⟨"Token with ID " ++ exampleToken.Id ++ " does not exist",
        TokenServer.empty.getTokens⟩, none⟩ :=
  C8_create_then_drop_restores TokenServer.empty exampleToken exampleToken exampleToken
    exampleToken (by decide) rfl rfl rfl

/-- C9 (as amended): `WriteToken` does not check the order of the bounds. For a request whose
bounds are inverted, an absent id leaves the registry as it is with the message that the token
does not exist; a present id is written like any other: no error, the message of a successful
update, and a record with the bounds of the request as they came,
`PartialValue = computePartialValue(name, low, mid)` and `FinalValue = 0`. -/
theorem C9_WriteToken_inverted_bounds_accepted (s : TokenServer) (req : Token)
    (_hinv : ¬ (req.Low ≤ req.Mid ∧ req.Mid ≤ req.High)) :
    (s.tokens.lookup req.Id = none →
      s.WriteToken req =
        ⟨s, ⟨"Token with ID " ++ req.Id ++ " does not exist", s.getTokens⟩, none⟩) ∧
    (∀ t, s.tokens.lookup req.Id = some t →
      (s.WriteToken req).err = none ∧
      (s.WriteToken req).resp.Message = "Properties updated for token with ID " ++ req.Id ∧
      (s.WriteToken req).server.tokens.lookup req.Id =
        some ⟨t.Id, req.Name, req.Low, req.Mid, req.High,
          computePartialValue req.Name req.Low req.Mid, 0⟩) := by
  refine ⟨WriteToken_of_absent s req, ?_⟩
  intro t ht
  rw [WriteToken_of_present s req t ht]
  exact ⟨rfl, rfl, Finmap.lookup_insert _⟩

/-- Witness of C9 (as amended): a write of the bounds `(6, 3, 1)` to the example registry. -/
theorem C9_WriteToken_inverted_bounds_accepted_witness :
    (exampleServer.tokens.lookup "t1" = none →
      exampleServer.WriteToken ⟨"t1", "alice", 6, 3, 1, 0, 0⟩ =
        ⟨exampleServer, ⟨"Token with ID " ++ "t1" ++ " does not exist",
          exampleServer.getTokens⟩, none⟩) ∧
    (∀ t, exampleServer.tokens.lookup "t1" = some t →
      (exampleServer.WriteToken ⟨"t1", "alice", 6, 3, 1, 0, 0⟩).err = none ∧
      (exampleServer.WriteToken ⟨"t1", "alice", 6, 3, 1, 0, 0⟩).resp.Message =
        "Properties updated for token with ID " ++ "t1" ∧
      (exampleServer.WriteToken ⟨"t1", "alice", 6, 3, 1, 0, 0⟩).server.tokens.lookup "t1" =
        some ⟨t.Id, "alice", 6, 3, 1, computePartialValue "alice" 6 3, 0⟩) :=
  C9_WriteToken_inverted_bounds_accepted exampleServer ⟨"t1", "alice", 6, 3, 1, 0, 0⟩
    (by decide)

/-- C9 fails as stated: a write with the inverted bounds `(6, 3, 1)` to a registry that holds
`t1` is not rejected. The registry changes, the record takes the inverted bounds, no error is
returned and the message is that of a successful update. -/
theorem C9_counterexample :
    ¬ ((6 : Nat) ≤ 3 ∧ (3 : Nat) ≤ 1) ∧
    (exampleServer.WriteToken ⟨"t1", "alice", 6, 3, 1, 0, 0⟩).server ≠ exampleServer ∧
    (exampleServer.WriteToken ⟨"t1", "alice", 6, 3, 1, 0, 0⟩).server.tokens.lookup "t1" =
      some ⟨"t1", "alice", 6, 3, 1, 0, 0⟩ ∧
    (exampleServer.WriteToken ⟨"t1", "alice", 6, 3, 1, 0, 0⟩).err = none ∧
    (exampleServer.WriteToken ⟨"t1", "alice", 6, 3, 1, 0, 0⟩).resp.Message =
      "Properties updated for token with ID t1" := by
  decide

/-- C10 (as amended): in every registry reached from the empty one by a sequence of
`CreateToken`, `DropToken`, `WriteToken` and `ReadToken` calls whose create and write requests
have `Low ≤ Mid ≤ High`, every token has `Low ≤ Mid ≤ High`. -/
theorem C10_ordered_requests_keep_domains_ordered (calls : List Call)
    (hcalls : ∀ c ∈ calls, c.Ordered) (k : String) (t : Token)
    (hk : (TokenServer.empty.run calls).tokens.lookup k = some t) :
    t.Low ≤ t.Mid ∧ t.Mid ≤ t.High := by
  have hempty : OrderedMap TokenServer.empty.tokens := by
    intro k1 t1 h
    simp [TokenServer.empty] at h
  exact OrderedMap_run calls TokenServer.empty hempty hcalls k t hk

/-- Witness of C10 (as amended): create, write and read of the example token, with a create and
a drop of a second token in between. -/
theorem C10_ordered_requests_keep_domains_ordered_witness :
    (TokenServer.empty.run exampleCalls).tokens.lookup "t1" =
      some ⟨"t1", "alice", 0, 5, 10, 3, 3⟩ ∧
    (∀ c ∈ exampleCalls, c.Ordered) ∧ (0 : Nat) ≤ 5 ∧ (5 : Nat) ≤ 10 :=
  ⟨by decide!, by decide,
    C10_ordered_requests_keep_domains_ordered exampleCalls (by decide) "t1"
      ⟨"t1", "alice", 0, 5, 10, 3, 3⟩ (by decide!)⟩

/-- C10 fails as stated: the registry reached from the empty one by the single call
`CreateToken("t1", "alice", 6, 3, 1)` holds a token whose domain is not ordered. -/
theorem C10_counterexample :
    ∃ t, (TokenServer.empty.run [.create ⟨"t1", "alice", 6, 3, 1, 0, 0⟩]).tokens.lookup "t1" =
        some t ∧ ¬ (t.Low ≤ t.Mid ∧ t.Mid ≤ t.High) :=
  ⟨⟨"t1", "alice", 6, 3, 1, 0, 0⟩, by decide, by decide⟩

/-! ## Further facts about the registry -/

/-- The list returned by `getTokens` is a snapshot of the registry it is taken from. -/
theorem IsSnapshot_getTokens (s : TokenServer) : IsSnapshot s.getTokens s := by
  refine ⟨s.tokens.entries.map (fun e => (e.1, e.2)), ?_, ?_, ?_⟩
  · simp only [TokenServer.getTokens, Multiset.map_map]
    rfl
  · have h : (s.tokens.entries.map (fun e => (e.1, e.2))).map Prod.fst =
        s.tokens.entries.keys := by
      simp only [Multiset.map_map, Multiset.keys]
      rfl
    rw [h]
    exact s.tokens.nodupKeys.nodup_keys
  · intro k t
    rw [Multiset.mem_map]
    constructor
    · rintro ⟨⟨k1, t1⟩, hmem, heq⟩
      cases heq
      exact Finmap.mem_lookup_iff.mpr hmem
    · intro h
      exact ⟨⟨k, t⟩, Finmap.mem_lookup_iff.mp h, rfl⟩

/-- The Go function `min` never exceeds its second argument. -/
theorem min_le_right (a b : Nat) : Server.min a b ≤ b := by
  unfold Server.min
  split <;> omega

theorem KeyedById_insert (m : Finmap (fun _ : String => Token)) (k : String) (t : Token)
    (hm : KeyedById m) (ht : t.Id = k) : KeyedById (m.insert k t) := by
  intro k1 t1 h
  by_cases hk : k1 = k
  · subst hk
    rw [Finmap.lookup_insert] at h
    cases h
    exact ht
  · rw [Finmap.lookup_insert_of_ne _ hk] at h
    exact hm k1 t1 h

theorem KeyedById_erase (m : Finmap (fun _ : String => Token)) (k : String)
    (hm : KeyedById m) : KeyedById (m.erase k) := by
  intro k1 t1 h
  by_cases hk : k1 = k
  · subst hk
    rw [Finmap.lookup_erase] at h
    cases h
  · rw [Finmap.lookup_erase_ne hk] at h
    exact hm k1 t1 h

/-- One call, whatever its request, keeps every record under its own id. -/
theorem KeyedById_step (s : TokenServer) (c : Call) (hs : KeyedById s.tokens) :
    KeyedById (s.step c).tokens := by
  cases c with
  | create r =>
    cases hl : s.tokens.lookup r.Id with
    | none =>
      simp only [TokenServer.step, CreateToken_of_absent s r hl]
      exact KeyedById_insert _ _ _ hs rfl
    | some t =>
      simp only [TokenServer.step, CreateToken_of_present s r t hl]
      exact hs
  | drop r =>
    cases hl : s.tokens.lookup r.Id with
    | none =>
      simp only [TokenServer.step, DropToken_of_absent s r hl]
      exact hs
    | some t =>
      simp only [TokenServer.step, DropToken_of_present s r t hl]
      exact KeyedById_erase _ _ hs
  | write r =>
    cases hl : s.tokens.lookup r.Id with
    | none =>
      simp only [TokenServer.step, WriteToken_of_absent s r hl]
      exact hs
    | some t =>
      simp only [TokenServer.step, WriteToken_of_present s r t hl]
      exact KeyedById_insert _ _ _ hs (hs r.Id t hl)
  | read r =>
    cases hl : s.tokens.lookup r.Id with
    | none =>
      simp only [TokenServer.step, ReadToken_of_absent s r hl]
      exact hs
    | some t =>
      simp only [TokenServer.step, ReadToken_of_present s r t hl]
      exact KeyedById_insert _ _ _ hs (hs r.Id t hl)

/-- Any sequence of calls keeps every record under its own id. -/
theorem KeyedById_run (calls : List Call) :
    ∀ s : TokenServer, KeyedById s.tokens → KeyedById (s.run calls).tokens := by
  induction calls with
  | nil => intro s hs; exact hs
  | cons c rest ih =>
    intro s hs
    exact ih (s.step c) (KeyedById_step s c hs)

/-- Every handler fills the list of its response from the state it leaves behind. -/
theorem resp_Tokens_eq_getTokens (s : TokenServer) (req : Token) :
    (s.CreateToken req).resp.Tokens = (s.CreateToken req).server.getTokens ∧
    (s.DropToken req).resp.Tokens = (s.DropToken req).server.getTokens ∧
    (s.WriteToken req).resp.Tokens = (s.WriteToken req).server.getTokens ∧
    (s.ReadToken req).resp.Tokens = (s.ReadToken req).server.getTokens := by
  refine ⟨?_, ?_, ?_, ?_⟩
  · unfold TokenServer.CreateToken
    split <;> rfl
  · unfold TokenServer.DropToken
    split <;> rfl
  · unfold TokenServer.WriteToken
    split <;> rfl
  · unfold TokenServer.ReadToken
    split <;> rfl

/-! ## The claims, continued -/

/-- C11: for a registry that holds a token under the id of the request, `ReadToken` leaves that
token with the same `Id`, `Name`, `Low`, `Mid`, `High` and `PartialValue`, leaves the set of
registered ids as it was, and leaves the record of every other id as it was. -/
theorem C11_ReadToken_recomputes_only_FinalValue (s : TokenServer) (req t : Token)
    (hpresent : s.tokens.lookup req.Id = some t) :
    (∃ t1, (s.ReadToken req).server.tokens.lookup req.Id = some t1 ∧
      t1.Id = t.Id ∧ t1.Name = t.Name ∧ t1.Low = t.Low ∧ t1.Mid = t.Mid ∧ t1.High = t.High ∧
      t1.PartialValue = t.PartialValue) ∧
    (s.ReadToken req).server.tokens.keys = s.tokens.keys ∧
    (∀ k, k ≠ req.Id → (s.ReadToken req).server.tokens.lookup k = s.tokens.lookup k) := by
  rw [ReadToken_of_present s req t hpresent]
  refine ⟨⟨_, Finmap.lookup_insert _, rfl, rfl, rfl, rfl, rfl, rfl⟩, ?_, ?_⟩
  · ext k
    simp only [Finmap.mem_keys, Finmap.mem_insert]
    constructor
    · rintro (hk | hk)
      · rw [hk]
        exact Finmap.mem_of_lookup_eq_some hpresent
      · exact hk
    · intro hk
      exact Or.inr hk
  · intro k hk
    exact Finmap.lookup_insert_of_ne _ hk

/-- Witness of C11: a read of `t1` in the registry of the example run, which also holds
`t2`. -/
theorem C11_ReadToken_recomputes_only_FinalValue_witness :
    (∃ t1, ((TokenServer.empty.run twoTokenCalls).ReadToken
        ⟨"t1", "", 0, 0, 0, 0, 0⟩).server.tokens.lookup "t1" = some t1 ∧
      t1.Id = "t1" ∧ t1.Name = "alice" ∧ t1.Low = 0 ∧ t1.Mid = 5 ∧ t1.High = 10 ∧
      t1.PartialValue = 3) ∧
    ((TokenServer.empty.run twoTokenCalls).ReadToken
        ⟨"t1", "", 0, 0, 0, 0, 0⟩).server.tokens.keys =
      (TokenServer.empty.run twoTokenCalls).tokens.keys ∧
    (∀ k, k ≠ "t1" → ((TokenServer.empty.run twoTokenCalls).ReadToken
        ⟨"t1", "", 0, 0, 0, 0, 0⟩).server.tokens.lookup k =
      (TokenServer.empty.run twoTokenCalls).tokens.lookup k) :=
  C11_ReadToken_recomputes_only_FinalValue (TokenServer.empty.run twoTokenCalls)
    ⟨"t1", "", 0, 0, 0, 0, 0⟩ ⟨"t1", "alice", 0, 5, 10, 3, 0⟩ (by decide!)

/-- C12: for an id that the registry does not hold, `DropToken`, `WriteToken` and `ReadToken`
each leave the registry as it is, return no error and answer with the message
`Token with ID <id> does not exist` and the list of the tokens. -/
theorem C12_absent_id_is_noop (s : TokenServer) (req : Token)
    (habsent : s.tokens.lookup req.Id = none) :
    s.DropToken req =
      ⟨s, ⟨"Token with ID " ++ req.Id ++ " does not exist", s.getTokens⟩, none⟩ ∧
    s.WriteToken req =
      ⟨s, ⟨"Token with ID " ++ req.Id ++ " does not exist", s.getTokens⟩, none⟩ ∧
    s.ReadToken req =
      ⟨s, ⟨"Token with ID " ++ req.Id ++ " does not exist", s.getTokens⟩, none⟩ :=
  ⟨DropToken_of_absent s req habsent, WriteToken_of_absent s req habsent,
    ReadToken_of_absent s req habsent⟩

/-- Witness of C12: the three calls for the id `t9` in the example registry, which holds
`t1` only. -/
theorem C12_absent_id_is_noop_witness :
    exampleServer.DropToken ⟨"t9", "carol", 1, 2, 3, 0, 0⟩ =
      ⟨exampleServer, ⟨"Token with ID " ++ "t9" ++ " does not exist",
        exampleServer.getTokens⟩, none⟩ ∧
    exampleServer.WriteToken ⟨"t9", "carol", 1, 2, 3, 0, 0⟩ =
      ⟨exampleServer, ⟨"Token with ID " ++ "t9" ++ " does not exist",
        exampleServer.getTokens⟩, none⟩ ∧
    exampleServer.ReadToken ⟨"t9", "carol", 1, 2, 3, 0, 0⟩ =
      ⟨exampleServer, ⟨"Token with ID " ++ "t9" ++ " does not exist",
        exampleServer.getTokens⟩, none⟩ :=
  C12_absent_id_is_noop exampleServer ⟨"t9", "carol", 1, 2, 3, 0, 0⟩ (by decide)

/-- C13: for every registry and every request, on every branch, the list of tokens returned
by `CreateToken`, `DropToken`, `WriteToken` and `ReadToken` is a snapshot of the registry after
the call: one entry for each registered id, equal to the record of that id, and nothing else. -/
theorem C13_responses_list_all_tokens (s : TokenServer) (req : Token) :
    IsSnapshot (s.CreateToken req).resp.Tokens (s.CreateToken req).server ∧
    IsSnapshot (s.DropToken req).resp.Tokens (s.DropToken req).server ∧
    IsSnapshot (s.WriteToken req).resp.Tokens (s.WriteToken req).server ∧
    IsSnapshot (s.ReadToken req).resp.Tokens (s.ReadToken req).server := by
  obtain ⟨h1, h2, h3, h4⟩ := resp_Tokens_eq_getTokens s req
  rw [h1, h2, h3, h4]
  exact ⟨IsSnapshot_getTokens _, IsSnapshot_getTokens _, IsSnapshot_getTokens _,
    IsSnapshot_getTokens _⟩

/-- C16: for a registry that holds a token under the id of the request, `ReadToken` leaves as
`FinalValue` the smaller of `computeFinalValue(Name, Mid, High)` and the `PartialValue` of the
token, which the read does not change: the minimum of the two numbers. So after the read
`FinalValue ≤ PartialValue`, and `FinalValue` does not exceed the result of the scan either. -/
theorem C16_ReadToken_clamps_FinalValue (s : TokenServer) (req t : Token)
    (hpresent : s.tokens.lookup req.Id = some t) :
    ∃ t1, (s.ReadToken req).server.tokens.lookup req.Id = some t1 ∧
      t1.PartialValue = t.PartialValue ∧
      t1.FinalValue = Nat.min (computeFinalValue t.Name t.Mid t.High) t1.PartialValue ∧
      t1.FinalValue ≤ t1.PartialValue ∧
      t1.FinalValue ≤ computeFinalValue t.Name t.Mid t.High := by
  rw [ReadToken_of_present s req t hpresent]
  refine ⟨_, Finmap.lookup_insert _, rfl, min_eq_Nat_min _ _, ?_, ?_⟩
  · exact min_le_right _ _
  · show Server.min _ _ ≤ _
    rw [min_eq_Nat_min]
    exact Nat.min_le_left _ _

/-- Witness of C16: a read of a token with the domain `(0, 3, 6)` and the partial value `7`.
The scan of `[3, 6)` gives `3`, which is the smaller number and becomes the final value. -/
theorem C16_ReadToken_clamps_FinalValue_witness :
    (∃ t1, (clampServer.ReadToken ⟨"t1", "", 0, 0, 0, 0, 0⟩).server.tokens.lookup "t1" =
        some t1 ∧
      t1.PartialValue = 7 ∧
      t1.FinalValue = Nat.min (computeFinalValue "alice" 3 6) t1.PartialValue ∧
      t1.FinalValue ≤ t1.PartialValue ∧
      t1.FinalValue ≤ computeFinalValue "alice" 3 6) ∧
    (clampServer.ReadToken ⟨"t1", "", 0, 0, 0, 0, 0⟩).server.tokens.lookup "t1" =
      some ⟨"t1", "alice", 0, 3, 6, 7, 3⟩ :=
  ⟨C16_ReadToken_clamps_FinalValue clampServer ⟨"t1", "", 0, 0, 0, 0, 0⟩
      ⟨"t1", "alice", 0, 3, 6, 7, 0⟩ (by decide),
    by decide!⟩

/-- C17: `computePartialValue` and `computeFinalValue` are the same function: they return the
same value for every name and every pair of bounds, ordered or not. -/
theorem C17_computePartialValue_eq_computeFinalValue (name : String) (a b : Nat) :
    computePartialValue name a b = computeFinalValue name a b :=
  (computeFinalValue_eq_computePartialValue name a b).symm

/-- C18: in every registry reached from the empty one by a sequence of `CreateToken`,
`DropToken`, `WriteToken` and `ReadToken` calls, the record stored under a key has that key as
its `Id`. -/
theorem C18_records_keyed_by_own_id (calls : List Call) (k : String) (t : Token)
    (hk : (TokenServer.empty.run calls).tokens.lookup k = some t) : t.Id = k := by
  have hempty : KeyedById TokenServer.empty.tokens := by
    intro k1 t1 h
    simp [TokenServer.empty] at h
  exact KeyedById_run calls TokenServer.empty hempty k t hk

/-- Witness of C18: the record under `t1` after the example run. -/
theorem C18_records_keyed_by_own_id_witness :
    (TokenServer.empty.run exampleCalls).tokens.lookup "t1" =
      some ⟨"t1", "alice", 0, 5, 10, 3, 3⟩ ∧
    (⟨"t1", "alice", 0, 5, 10, 3, 3⟩ : Token).Id = "t1" :=
  ⟨by decide!, C18_records_keyed_by_own_id exampleCalls "t1" ⟨"t1", "alice", 0, 5, 10, 3, 3⟩
    (by decide!)⟩

/-! ## The preimage of the hash -/

/-- A decimal digit is printed as a character that stands for it and is not a blank. -/
theorem digitChar_spec (d : Nat) (hd : d < 10) :
    digitValue (Nat.digitChar d) = d ∧ Nat.digitChar d ≠ ' ' := by
  interval_cases d <;> exact ⟨by decide, by decide⟩

/-- The digits printed in front of `ds` stand for the number printed and hold no blank. -/
theorem toDigitsCore_spec :
    ∀ (fuel n : Nat) (ds : List Char), n < fuel →
      ∃ l, Nat.toDigitsCore 10 fuel n ds = l ++ ds ∧ ' ' ∉ l ∧ decimalValue l = n := by
  intro fuel
  induction fuel with
  | zero => intro n ds h; omega
  | succ f ih =>
    intro n ds hn
    obtain ⟨hval, hblank⟩ := digitChar_spec (n % 10) (Nat.mod_lt _ (by decide))
    by_cases h0 : n / 10 = 0
    · refine ⟨[Nat.digitChar (n % 10)], ?_, ?_, ?_⟩
      · simp only [Nat.toDigitsCore, h0, if_true, List.singleton_append]
      · simpa using hblank.symm
      · simp only [decimalValue, List.foldl, hval]
        omega
    · obtain ⟨l, hl, hb, hv⟩ := ih (n / 10) (Nat.digitChar (n % 10) :: ds) (by omega)
      refine ⟨l ++ [Nat.digitChar (n % 10)], ?_, ?_, ?_⟩
      · simp only [Nat.toDigitsCore, h0, if_false, hl, List.append_assoc,
          List.singleton_append]
      · simp only [List.mem_append, List.mem_singleton, not_or]
        exact ⟨hb, hblank.symm⟩
      · unfold decimalValue at hv ⊢
        rw [List.foldl_append, hv]
        simp only [List.foldl, hval]
        omega

/-- The decimal form of a nonce holds no blank and stands for the nonce. -/
theorem toDigits_spec (n : Nat) :
    ' ' ∉ Nat.toDigits 10 n ∧ decimalValue (Nat.toDigits 10 n) = n := by
  obtain ⟨l, hl, hb, hv⟩ := toDigitsCore_spec (n + 1) n [] (by omega)
  rw [List.append_nil] at hl
  unfold Nat.toDigits
  rw [hl]
  exact ⟨hb, hv⟩

/-- Two lists cut at a separator that occurs in neither tail agree part by part. -/
theorem append_sep_inj {α : Type} (a : α) :
    ∀ (l1 l2 r1 r2 : List α), a ∉ r1 → a ∉ r2 → l1 ++ a :: r1 = l2 ++ a :: r2 →
      l1 = l2 ∧ r1 = r2 := by
  intro l1
  induction l1 with
  | nil =>
    intro l2 r1 r2 h1 _ h
    cases l2 with
    | nil => simpa using h
    | cons b l2 =>
      simp only [List.nil_append, List.cons_append, List.cons.injEq] at h
      exact absurd (h.2 ▸ List.mem_append_right l2 (List.mem_cons_self a r2)) h1
  | cons c l1 ih =>
    intro l2 r1 r2 h1 h2 h
    cases l2 with
    | nil =>
      simp only [List.nil_append, List.cons_append, List.cons.injEq] at h
      exact absurd (h.2 ▸ List.mem_append_right l1 (List.mem_cons_self a r1)) h2
    | cons b l2 =>
      simp only [List.cons_append, List.cons.injEq] at h
      obtain ⟨hl, hr⟩ := ih l2 r1 r2 h1 h2 h.2
      exact ⟨by rw [h.1, hl], hr⟩

/-- The characters of the preimage: the name, a blank, the decimal digits of the nonce. -/
theorem hashInput_data (name : String) (nonce : Nat) :
    (hashInput name nonce).data = name.data ++ ' ' :: Nat.toDigits 10 nonce := by
  simp [hashInput, toString, Nat.repr, List.asString]

/-- C20: the preimage `<name> <nonce>` built by `Hash` determines the name and the nonce: two
preimages are equal only for equal names and equal nonces, whatever characters the names hold
(the decimal digits hold no blank, so the last blank of the preimage ends the name). -/
theorem C20_hashInput_injective (n1 n2 : String) (x1 x2 : Nat)
    (h : hashInput n1 x1 = hashInput n2 x2) : n1 = n2 ∧ x1 = x2 := by
  have hd : (hashInput n1 x1).data = (hashInput n2 x2).data := by rw [h]
  rw [hashInput_data, hashInput_data] at hd
  obtain ⟨hb1, hv1⟩ := toDigits_spec x1
  obtain ⟨hb2, hv2⟩ := toDigits_spec x2
  obtain ⟨hname, hdigits⟩ := append_sep_inj ' ' _ _ _ _ hb1 hb2 hd
  refine ⟨String.ext hname, ?_⟩
  rw [← hv1, ← hv2, hdigits]

/-- Witness of C20: the preimage of the name `alice 1` and the nonce `2`. -/
theorem C20_hashInput_injective_witness :
    hashInput "alice 1" 2 = "alice 1 2" ∧ "alice 1" = "alice 1" ∧ 2 = 2 :=
  ⟨by decide, C20_hashInput_injective "alice 1" "alice 1" 2 2 rfl⟩

end Server

namespace TokenGo

/-! ## Facts about `token.go` -/

/-- Invariant of the scan of `token.go`, with enough fuel to reach `high`: the result is
`minHash` when no hash from `i` on is strictly below it, and otherwise the least hash from `i`
on, which is then the hash of a nonce of the range. -/
theorem minHashLoop_spec (name : String) (high : Nat) :
    ∀ (fuel i minHash : Nat), high ≤ i + fuel →
      (computePartialValueLoop name high fuel i minHash = minHash ∧
        ∀ y, i ≤ y → y < high → minHash ≤ Hash name y) ∨
      (computePartialValueLoop name high fuel i minHash < minHash ∧
        (∃ y, i ≤ y ∧ y < high ∧
          Hash name y = computePartialValueLoop name high fuel i minHash) ∧
        ∀ y, i ≤ y → y < high →
          computePartialValueLoop name high fuel i minHash ≤ Hash name y) := by
  intro fuel
  induction fuel with
  | zero =>
    intro i minHash hf
    left
    exact ⟨rfl, fun y h1 h2 => by omega⟩
  | succ n ih =>
    intro i minHash hf
    by_cases hi : i < high
    · by_cases hh : Hash name i < minHash
      · have hstep : computePartialValueLoop name high (n + 1) i minHash =
            computePartialValueLoop name high n (i + 1) (Hash name i) := by
          simp only [computePartialValueLoop, hi, hh, if_true]
        rw [hstep]
        right
        rcases ih (i + 1) (Hash name i) (by omega) with ⟨hr, hall⟩ | ⟨h1, ⟨y, hy1, hy2, hy3⟩, h3⟩
        · rw [hr]
          refine ⟨hh, ⟨i, le_refl _, hi, rfl⟩, ?_⟩
          intro y hy1 hy2
          rcases Nat.eq_or_lt_of_le hy1 with heq | hlt
          · rw [heq]
          · exact hall y hlt hy2
        · refine ⟨by omega, ⟨y, by omega, hy2, hy3⟩, ?_⟩
          intro z hz1 hz2
          rcases Nat.eq_or_lt_of_le hz1 with heq | hlt
          · rw [← heq]; omega
          · exact h3 z hlt hz2
      · have hstep : computePartialValueLoop name high (n + 1) i minHash =
            computePartialValueLoop name high n (i + 1) minHash := by
          simp only [computePartialValueLoop, hi, hh, if_true, if_false]
        rw [hstep]
        rcases ih (i + 1) minHash (by omega) with ⟨hr, hall⟩ | ⟨h1, ⟨y, hy1, hy2, hy3⟩, h3⟩
        · left
          refine ⟨hr, ?_⟩
          intro y hy1 hy2
          rcases Nat.eq_or_lt_of_le hy1 with heq | hlt
          · rw [← heq]; omega
          · exact hall y hlt hy2
        · right
          refine ⟨h1, ⟨y, by omega, hy2, hy3⟩, ?_⟩
          intro z hz1 hz2
          rcases Nat.eq_or_lt_of_le hz1 with heq | hlt
          · rw [← heq]; omega
          · exact h3 z hlt hz2
    · have hstep : computePartialValueLoop name high (n + 1) i minHash = minHash := by
        simp only [computePartialValueLoop, hi, if_false]
      rw [hstep]
      left
      exact ⟨rfl, fun y h1 h2 => by omega⟩

/-- What `computePartialValue` of `token.go` returns: the maximum possible value when every
hash of the range equals it, and otherwise the least hash of the range. -/
theorem minHash_spec (name : String) (lo hi : Nat) :
    (computePartialValue name lo hi = Server.maxUint64 ∧
      ∀ y, lo ≤ y → y < hi → Server.Hash name y = Server.maxUint64) ∨
    (computePartialValue name lo hi < Server.maxUint64 ∧
      (∃ y, lo ≤ y ∧ y < hi ∧ Server.Hash name y = computePartialValue name lo hi) ∧
      ∀ y, lo ≤ y → y < hi → computePartialValue name lo hi ≤ Server.Hash name y) := by
  unfold computePartialValue
  rcases minHashLoop_spec name hi (hi - lo) lo Server.maxUint64 (by omega) with
    ⟨hr, hall⟩ | h
  · left
    exact ⟨hr, fun y h1 h2 =>
      Nat.le_antisymm (Server.Hash_le_maxUint64 name y) (hall y h1 h2)⟩
  · right
    exact h

/-- On a range with a hash below the maximum possible value, the least hash that `token.go`
returns is the hash of the nonce that `server.go` returns. -/
theorem computePartialValue_eq_Hash_of_exists (name : String) (lo hi : Nat)
    (hsome : ∃ y, lo ≤ y ∧ y < hi ∧ Server.Hash name y < Server.maxUint64) :
    computePartialValue name lo hi =
      Server.Hash name (Server.computePartialValue name lo hi) := by
  obtain ⟨y0, hy1, hy2, hy3⟩ := hsome
  rcases Server.computePartialValue_spec name lo hi with ⟨_, hall⟩ | ⟨s1, s2, _, s4, _⟩
  · have := hall y0 hy1 hy2
    omega
  · rcases minHash_spec name lo hi with ⟨_, tall⟩ | ⟨_, ⟨y, ty1, ty2, ty3⟩, t3⟩
    · have := tall y0 hy1 hy2
      omega
    · have h1 := t3 _ s1 s2
      have h2 := s4 y ty1 ty2
      omega

/-- The two scans agree up to the shape of the result on every non-empty range exactly when
a nonce from `1` on can hash to the maximum possible value only if the nonce `0` does. Whether
SHA-256 has such inputs is not settled here. -/
theorem computePartialValue_eq_Hash_iff (name : String) :
    (∀ lo hi, lo < hi → hi ≤ Server.maxUint64 →
      computePartialValue name lo hi =
        Server.Hash name (Server.computePartialValue name lo hi)) ↔
    (∀ x, 1 ≤ x → x < Server.maxUint64 → Server.Hash name x = Server.maxUint64 →
      Server.Hash name 0 = Server.maxUint64) := by
  constructor
  · intro h x hx1 hx2 hmax
    have hall : ∀ y, x ≤ y → y < x + 1 → Server.Hash name y = Server.maxUint64 := by
      intro y hy1 hy2
      have : y = x := by omega
      rw [this]; exact hmax
    have hz := Server.computePartialValue_eq_zero_of_all_max name x (x + 1) hall
    have heq := h x (x + 1) (by omega) (by omega)
    rw [hz] at heq
    rcases minHash_spec name x (x + 1) with ⟨ht, _⟩ | ⟨ht, ⟨y, ty1, ty2, ty3⟩, _⟩
    · rw [← heq, ht]
    · have := hall y ty1 ty2
      omega
  · intro h lo hi hlt hhi
    by_cases hsome : ∃ y, lo ≤ y ∧ y < hi ∧ Server.Hash name y < Server.maxUint64
    · exact computePartialValue_eq_Hash_of_exists name lo hi hsome
    · have hall : ∀ y, lo ≤ y → y < hi → Server.Hash name y = Server.maxUint64 := by
        intro y hy1 hy2
        have hle := Server.Hash_le_maxUint64 name y
        by_contra hne
        exact hsome ⟨y, hy1, hy2, by omega⟩
      rw [Server.computePartialValue_eq_zero_of_all_max name lo hi hall]
      have h0 : Server.Hash name 0 = Server.maxUint64 := by
        by_cases hlo : lo = 0
        · exact hall 0 (by omega) (by omega)
        · exact h lo (by omega) (by omega) (hall lo (le_refl _) hlt)
      rw [h0]
      rcases minHash_spec name lo hi with ⟨ht, _⟩ | ⟨_, ⟨y, ty1, ty2, ty3⟩, _⟩
      · exact ht
      · have := hall y ty1 ty2
        omega

/-- What `WriteToken` of `token.go` leaves under the id of the request: the name and the domain
of the request, a fresh state, the recomputed partial value, and the `FinalValue` that the
record held before. -/
theorem lookup_WriteToken (s : tokenServer) (req t : Token)
    (h : s.tokens.lookup req.Id = some t) :
    (s.WriteToken req).server.tokens.lookup req.Id =
      some ⟨t.Id, req.Name, req.Domain, {},
        computePartialValue req.Name req.Domain.Low req.Domain.Mid, t.FinalValue⟩ := by
  simp only [tokenServer.WriteToken, h]
  exact Finmap.lookup_insert _

/-! ## The claims about `token.go` -/

/-- C14 fails on the code: `WriteToken` of `token.go` does not reset `FinalValue`. The example
token, created, written and read, holds the final value `3971539619432060203`; a write of the
name `bob` and the domain `(1, 4, 9)` replaces name and domain and recomputes the partial value,
and the record still holds that final value, not zero. -/
theorem C14_WriteToken_keeps_FinalValue :
    readServer.tokens.lookup "t1" =
      some ⟨"t1", "alice", ⟨0, 3, 6⟩, {}, 15161050984476538163, 3971539619432060203⟩ ∧
    (readServer.WriteToken ⟨"t1", "bob", ⟨1, 4, 9⟩, {}, 0, 0⟩).server.tokens.lookup "t1" =
      some ⟨"t1", "bob", ⟨1, 4, 9⟩, {}, computePartialValue "bob" 1 4,
        3971539619432060203⟩ := by
  decide!

end TokenGo
